import Mathlib

/-!
Verification of the Spittle transcription pipeline against its specification.

Strings from the Rust sources are modelled as `List Char` (Rust iterates
`char`s and we track UTF-8 byte lengths explicitly via `Char.utf8Size`
wherever the source uses `str::len`).  Each Rust function used by a claim is
translated into an executable Lean definition; theorems about those
definitions follow at the end of the file.
-/

namespace Spittle

/-- UTF-8 byte length of a character list; models Rust `str::len` on the
string holding these characters. -/
def utf8Len (s : List Char) : Nat := (s.map Char.utf8Size).sum

-- ===========================================================================
-- pipeline.rs: should_insert_boundary_space
-- ===========================================================================

/-- Characters treated as opening brackets / quotes by
`should_insert_boundary_space` (src/src-tauri/src/pipeline.rs, the
`matches!(left_last, ...)` arm). -/
def isOpeningBracket (c : Char) : Bool :=
  c = '(' || c = '[' || c = '{' || c = '"' || c = '\''

/-- Characters treated as closing punctuation by
`should_insert_boundary_space` (the `matches!(right_first, ...)` arm). -/
def isClosingPunct (c : Char) : Bool :=
  c = '.' || c = ',' || c = ';' || c = ':' || c = '!' || c = '?' ||
  c = ')' || c = ']' || c = '}'

/-- Model of `should_insert_boundary_space(left, right)` from
src/src-tauri/src/pipeline.rs lines 33-48.  `Char.isWhitespace` models
Rust `char::is_whitespace` (exact on the ASCII whitespace the pipeline
handles). -/
def should_insert_boundary_space (left right : List Char) : Bool :=
  if left.isEmpty || right.isEmpty then false
  else
    let left_last := left.getLast?.getD ' '
    let right_first := right.head?.getD ' '
    !left_last.isWhitespace && !isOpeningBracket left_last &&
      !right_first.isWhitespace && !isClosingPunct right_first

-- ===========================================================================
-- pipeline.rs: compute_text_diff
-- ===========================================================================

/-- Model of `TextDiff` from src/src-tauri/src/pipeline.rs lines 598-606. -/
structure TextDiff where
  suffix_chars : Nat
  delete_chars : Nat
  insert : List Char
  deriving Repr, DecidableEq

/-- Length of the longest common prefix of two character lists; models the
`zip(..).take_while(..).count()` prefix computation in `compute_text_diff`. -/
def commonPrefixLen : List Char → List Char → Nat
  | a :: as, b :: bs => if a = b then commonPrefixLen as bs + 1 else 0
  | _, _ => 0

/-- The common-prefix length `prefix_len` computed by `compute_text_diff`. -/
def prefixLenOf (original processed : List Char) : Nat :=
  commonPrefixLen original processed

/-- The common-suffix length `suffix_len` computed by `compute_text_diff`:
the reversed-lists common prefix, capped at
`min(len(original), len(processed)) - prefix_len` (the Rust
`.take(max_suffix).take_while(..).count()`). -/
def suffixLenOf (original processed : List Char) : Nat :=
  min (commonPrefixLen original.reverse processed.reverse)
    (min original.length processed.length - prefixLenOf original processed)

/-- Model of `compute_text_diff` from src/src-tauri/src/pipeline.rs lines
614-657.  `insert` is `proc_chars[prefix_len .. proc_chars.len() - suffix_len]`. -/
def compute_text_diff (original processed : List Char) : Option TextDiff :=
  if original = processed then none
  else
    let p := prefixLenOf original processed
    let s := suffixLenOf original processed
    some { suffix_chars := s
           delete_chars := original.length - p - s
           insert := (processed.take (processed.length - s)).drop p }

/-- Apply a `TextDiff` to the original text, as described by the spec's
round-trip invariant: keep the first `len - suffix_chars - delete_chars`
characters, append `insert`, then append the last `suffix_chars` characters. -/
def applyTextDiff (original : List Char) (d : TextDiff) : List Char :=
  original.take (original.length - d.suffix_chars - d.delete_chars) ++
    d.insert ++ original.drop (original.length - d.suffix_chars)

-- ---------------------------------------------------------------------------
-- Lemmas about commonPrefixLen
-- ---------------------------------------------------------------------------

theorem commonPrefixLen_le_left : ∀ a b : List Char, commonPrefixLen a b ≤ a.length := by
  intro a
  induction a with
  | nil => intro b; cases b <;> simp [commonPrefixLen]
  | cons x xs ih =>
    intro b
    cases b with
    | nil => simp [commonPrefixLen]
    | cons y ys =>
      by_cases h : x = y <;> simp [commonPrefixLen, h]
      exact ih ys

theorem commonPrefixLen_le_right : ∀ a b : List Char, commonPrefixLen a b ≤ b.length := by
  intro a
  induction a with
  | nil => intro b; cases b <;> simp [commonPrefixLen]
  | cons x xs ih =>
    intro b
    cases b with
    | nil => simp [commonPrefixLen]
    | cons y ys =>
      by_cases h : x = y <;> simp [commonPrefixLen, h]
      exact ih ys

/-- The common prefix really is common: taking `commonPrefixLen a b`
characters from either side yields the same list. -/
theorem commonPrefixLen_take : ∀ a b : List Char,
    a.take (commonPrefixLen a b) = b.take (commonPrefixLen a b) := by
  intro a
  induction a with
  | nil => intro b; cases b <;> simp [commonPrefixLen]
  | cons x xs ih =>
    intro b
    cases b with
    | nil => simp [commonPrefixLen]
    | cons y ys =>
      by_cases h : x = y <;> simp [commonPrefixLen, h]
      exact ih ys

/-- Any `k` at most the reversed common-prefix length gives equal suffixes. -/
theorem drop_eq_of_commonPrefixLen_rev (a b : List Char) (k : Nat)
    (hk : k ≤ commonPrefixLen a.reverse b.reverse) :
    a.drop (a.length - k) = b.drop (b.length - k) := by
  have h1 : a.reverse.take k = b.reverse.take k := by
    have := commonPrefixLen_take a.reverse b.reverse
    calc a.reverse.take k
        = (a.reverse.take (commonPrefixLen a.reverse b.reverse)).take k := by
          rw [List.take_take, Nat.min_eq_left hk]
      _ = (b.reverse.take (commonPrefixLen a.reverse b.reverse)).take k := by rw [this]
      _ = b.reverse.take k := by rw [List.take_take, Nat.min_eq_left hk]
  have h2 : ∀ l : List Char, l.drop (l.length - k) = (l.reverse.take k).reverse := by
    intro l
    rw [List.take_reverse, List.reverse_reverse]
  rw [h2 a, h2 b, h1]

-- ===========================================================================
-- Theorems for claims C2, C7, C8 (diff engine)
-- ===========================================================================

/-- C2: for all strings `a`, `b`, if `compute_text_diff a b = some d` then
applying `d` to `a` (keep the first `len a - suffix_chars - delete_chars`
characters, append `insert`, append the last `suffix_chars` characters of
`a`) yields exactly `b`; and `compute_text_diff a b = none` iff `a = b`. -/
theorem diff_round_trip (a b : List Char) :
    (∀ d, compute_text_diff a b = some d → applyTextDiff a d = b) ∧
    (compute_text_diff a b = none ↔ a = b) := by
  constructor
  · intro d hd
    by_cases hab : a = b
    · simp [compute_text_diff, hab] at hd
    · simp only [compute_text_diff, if_neg hab, Option.some.injEq] at hd
      have hpa := commonPrefixLen_le_left a b
      have hpb := commonPrefixLen_le_right a b
      have hsr : suffixLenOf a b ≤ commonPrefixLen a.reverse b.reverse :=
        Nat.min_le_left _ _
      have hsm : suffixLenOf a b ≤
          min a.length b.length - prefixLenOf a b := Nat.min_le_right _ _
      have hma : min a.length b.length ≤ a.length := Nat.min_le_left _ _
      have hmb : min a.length b.length ≤ b.length := Nat.min_le_right _ _
      have hpm : prefixLenOf a b ≤ min a.length b.length :=
        le_min hpa hpb
      set p := prefixLenOf a b with hp
      set s := suffixLenOf a b with hs
      have harith : a.length - s - (a.length - p - s) = p := by omega
      have hpbs : p ≤ b.length - s := by omega
      have htake : a.take p = b.take p := commonPrefixLen_take a b
      have hdrop : a.drop (a.length - s) = b.drop (b.length - s) :=
        drop_eq_of_commonPrefixLen_rev a b s hsr
      subst hd
      simp only [applyTextDiff, harith]
      rw [htake, hdrop]
      have hbp : b.take p = (b.take (b.length - s)).take p := by
        rw [List.take_take, Nat.min_eq_left hpbs]
      rw [hbp, List.take_append_drop, List.take_append_drop]
  · by_cases hab : a = b <;> simp [compute_text_diff, hab]

/-- Witness for C2 at `a = "abc"`, `b = "xyz"`. -/
theorem diff_round_trip_witness :
    applyTextDiff "abc".toList ⟨0, 3, "xyz".toList⟩ = "xyz".toList :=
  (diff_round_trip "abc".toList "xyz".toList).1 _ (by decide)

/-- C7: `compute_text_diff "abc" "xyz"` is `suffix=0, delete=3, insert="xyz"`,
and `compute_text_diff "bad world" "good world"` is `suffix=7, delete=2,
insert="goo"`. -/
theorem diff_disjoint_ends :
    compute_text_diff "abc".toList "xyz".toList = some ⟨0, 3, "xyz".toList⟩ ∧
    compute_text_diff "bad world".toList "good world".toList =
      some ⟨7, 2, "goo".toList⟩ := by
  constructor <;> decide

/-- C8: the prefix and suffix lengths computed by `compute_text_diff` never
overlap (`p + s ≤ min (len a) (len b)`), and consequently every slice used to
build `delete_chars` and `insert` is in range: the function is total. -/
theorem diff_no_overlap (a b : List Char) :
    prefixLenOf a b + suffixLenOf a b ≤ min a.length b.length ∧
    (∀ d, compute_text_diff a b = some d →
      d.suffix_chars + d.delete_chars ≤ a.length ∧
      prefixLenOf a b + d.suffix_chars ≤ b.length ∧
      d.insert.length + d.suffix_chars + prefixLenOf a b = b.length) := by
  have hpa := commonPrefixLen_le_left a b
  have hpb := commonPrefixLen_le_right a b
  have hsm : suffixLenOf a b ≤
      min a.length b.length - prefixLenOf a b := Nat.min_le_right _ _
  have hma : min a.length b.length ≤ a.length := Nat.min_le_left _ _
  have hmb : min a.length b.length ≤ b.length := Nat.min_le_right _ _
  have hpm : prefixLenOf a b ≤ min a.length b.length :=
    le_min hpa hpb
  refine ⟨by omega, ?_⟩
  intro d hd
  by_cases hab : a = b
  · simp [compute_text_diff, hab] at hd
  · simp only [compute_text_diff, if_neg hab, Option.some.injEq] at hd
    subst hd
    simp only [List.length_drop, List.length_take]
    omega

/-- Witness for C8 at `a = "a"`, `b = "b"`, `d = ⟨0, 1, "b"⟩`. -/
theorem diff_no_overlap_witness :
    (0 : Nat) + 1 ≤ "a".toList.length ∧
    prefixLenOf "a".toList "b".toList + 0 ≤ "b".toList.length ∧
    "b".toList.length + 0 + prefixLenOf "a".toList "b".toList =
      "b".toList.length :=
  (diff_no_overlap "a".toList "b".toList).2 ⟨0, 1, "b".toList⟩ (by decide)

-- ===========================================================================
-- Theorem for claim C9 (boundary space)
-- ===========================================================================

/-- C9: for every pair of non-empty strings, `should_insert_boundary_space`
returns `true` exactly when the last character of `left` is a
non-space/non-opening-bracket and the first character of `right` is a
non-space/non-closing-punctuation. -/
theorem boundary_space_characterization (left right : List Char) (lc rc : Char)
    (hl : left.getLast? = some lc) (hr : right.head? = some rc) :
    (should_insert_boundary_space left right = true ↔
      (lc.isWhitespace = false ∧ isOpeningBracket lc = false ∧
       rc.isWhitespace = false ∧ isClosingPunct rc = false)) := by
  have hln : left.isEmpty = false := by
    cases left <;> simp_all
  have hrn : right.isEmpty = false := by
    cases right <;> simp_all
  simp [should_insert_boundary_space, hln, hrn, hl, hr]
  tauto

/-- Witness for C9 at `left = "a"`, `right = "b"`. -/
theorem boundary_space_characterization_witness :
    should_insert_boundary_space "a".toList "b".toList = true ↔
      ((Char.isWhitespace 'a') = false ∧ isOpeningBracket 'a' = false ∧
       (Char.isWhitespace 'b') = false ∧ isClosingPunct 'b' = false) :=
  boundary_space_characterization "a".toList "b".toList 'a' 'b'
    (by decide) (by decide)

-- ===========================================================================
-- jargon.rs: data types
-- ===========================================================================

/-- Model of `JargonCorrection` from src/src-tauri/src/jargon.rs. -/
structure JargonCorrection where
  «from» : List Char
  «to» : List Char
  deriving Repr, DecidableEq

/-- Model of `JargonProfile` from src/src-tauri/src/jargon.rs (the `label`
field is irrelevant to the claims and omitted). -/
structure JargonProfile where
  terms : List (List Char)
  corrections : List JargonCorrection
  deriving Repr, DecidableEq

/-- Model of `JargonSettings` from src/src-tauri/src/jargon.rs. -/
structure JargonSettings where
  enabled_profiles : List (List Char)
  custom_terms : List (List Char)
  custom_corrections : List JargonCorrection

/-- Model of `ActiveDictionary` from src/src-tauri/src/jargon.rs. -/
structure ActiveDictionary where
  terms : List (List Char)
  corrections : List JargonCorrection

-- ===========================================================================
-- jargon.rs: build_initial_prompt
-- ===========================================================================

/-- The fixed prompt prefix in `build_initial_prompt`. -/
def promptHeader : List Char := "Technical dictation. Common terms: ".toList

/-- The `", "` separator used when joining terms. -/
def promptSep : List Char := ", ".toList

/-- `available = max_len - prefix.len() - suffix.len()` from
`build_initial_prompt` (1000 - 35 - 1). -/
def promptAvailable : Nat := 1000 - utf8Len promptHeader - utf8Len ".".toList

/-- The greedy term-collecting loop of `build_initial_prompt`
(src/src-tauri/src/jargon.rs lines 607-620): `cur` is `current_len`,
`first` tracks `parts.is_empty()`, and the loop breaks at the first term
whose addition would exceed `available`. -/
def takeTerms (cur : Nat) (first : Bool) : List (List Char) → List (List Char)
  | [] => []
  | t :: ts =>
    let addition := cond first (utf8Len t) (utf8Len t + 2)
    if promptAvailable < cur + addition then []
    else t :: takeTerms (cur + addition) false ts

/-- Model of `Vec::join(", ")` on the collected parts. -/
def joinParts : List (List Char) → List Char
  | [] => []
  | [t] => t
  | t :: ts => t ++ promptSep ++ joinParts ts

/-- Model of `build_initial_prompt` from src/src-tauri/src/jargon.rs lines
594-627. -/
def build_initial_prompt (d : ActiveDictionary) : List Char :=
  if d.terms.isEmpty then []
  else
    let parts := takeTerms 0 true d.terms
    if parts.isEmpty then []
    else promptHeader ++ joinParts parts ++ ".".toList

/-- Cost of appending a term in non-first position: its byte length plus the
two separator bytes. -/
def termCost (ts : List (List Char)) : Nat :=
  (ts.map (fun t => utf8Len t + 2)).sum

theorem utf8Len_append (a b : List Char) :
    utf8Len (a ++ b) = utf8Len a + utf8Len b := by
  simp [utf8Len]

theorem joinParts_len (t : List Char) :
    ∀ ts, utf8Len (joinParts (t :: ts)) = utf8Len t + termCost ts := by
  intro ts
  induction ts generalizing t with
  | nil => simp [joinParts, termCost]
  | cons u ts ih =>
    show utf8Len (t ++ promptSep ++ joinParts (u :: ts)) = _
    rw [utf8Len_append, utf8Len_append, ih u]
    simp [termCost]
    have : utf8Len promptSep = 2 := by decide
    omega

/-- The greedy loop in non-first mode returns a prefix of its input whose
accumulated cost stays within budget, stopping exactly at the first term
that would exceed it. -/
theorem takeTerms_spec : ∀ (ts : List (List Char)) (cur : Nat),
    cur ≤ promptAvailable →
    ∃ n, takeTerms cur false ts = ts.take n ∧
      cur + termCost (ts.take n) ≤ promptAvailable ∧
      (n = ts.length ∨ promptAvailable < cur + termCost (ts.take (n + 1))) := by
  intro ts
  induction ts with
  | nil =>
    intro cur hcur
    exact ⟨0, by simp [takeTerms], by simpa [termCost], Or.inl rfl⟩
  | cons t ts ih =>
    intro cur hcur
    by_cases hstop : promptAvailable < cur + (utf8Len t + 2)
    · refine ⟨0, ?_, by simpa [termCost], Or.inr ?_⟩
      · simp [takeTerms, hstop]
      · simpa [termCost] using hstop
    · push_neg at hstop
      obtain ⟨n, hn, hcost, hgreedy⟩ := ih (cur + (utf8Len t + 2)) hstop
      refine ⟨n + 1, ?_, ?_, ?_⟩
      · simp only [takeTerms, Bool.cond_false]
        rw [if_neg (by omega), hn, List.take_succ_cons]
      · simp only [List.take_succ_cons, termCost, List.map_cons, List.sum_cons]
        simp only [termCost] at hcost
        omega
      · rcases hgreedy with h | h
        · exact Or.inl (by simp [h])
        · refine Or.inr ?_
          simp only [List.take_succ_cons, termCost, List.map_cons, List.sum_cons]
          simp only [termCost] at h
          omega

-- ===========================================================================
-- Theorem for claim C10 (initial prompt budget)
-- ===========================================================================

/-- C10: `build_initial_prompt` returns either the empty string, or a string
of at most 1000 bytes of the form `prefix ++ join(", ", terms.take n) ++ "."`
for some non-empty greedy prefix of the dictionary's terms, cut off at the
first term that would push the length past the budget. -/
theorem prompt_budget (d : ActiveDictionary) :
    build_initial_prompt d = [] ∨
    ∃ n, 1 ≤ n ∧
      build_initial_prompt d =
        promptHeader ++ joinParts (d.terms.take n) ++ ".".toList ∧
      utf8Len (build_initial_prompt d) ≤ 1000 ∧
      (n = d.terms.length ∨
        promptAvailable < utf8Len (joinParts (d.terms.take (n + 1)))) := by
  by_cases hempty : d.terms.isEmpty
  · exact Or.inl (by simp [build_initial_prompt, hempty])
  · obtain ⟨t, ts, hterms⟩ : ∃ t ts, d.terms = t :: ts := by
      cases h : d.terms with
      | nil => rw [h] at hempty; simp at hempty
      | cons t ts => exact ⟨t, ts, rfl⟩
    by_cases hfirst : promptAvailable < utf8Len t
    · refine Or.inl ?_
      simp [build_initial_prompt, hempty, hterms, takeTerms, hfirst]
    · push_neg at hfirst
      obtain ⟨n, hn, hcost, hgreedy⟩ := takeTerms_spec ts (utf8Len t) hfirst
      have hparts : takeTerms 0 true (t :: ts) = t :: ts.take n := by
        simp only [takeTerms, Bool.cond_true]
        rw [if_neg (by omega), Nat.zero_add, hn]
      have heq : build_initial_prompt d =
          promptHeader ++ joinParts (t :: ts.take n) ++ ".".toList := by
        simp only [build_initial_prompt, hterms, hparts]
        rw [if_neg (by simp), if_neg (by simp)]
      have hjoin : utf8Len (joinParts (t :: ts.take n)) =
          utf8Len t + termCost (ts.take n) := joinParts_len t (ts.take n)
      refine Or.inr ⟨n + 1, by omega, ?_, ?_, ?_⟩
      · rw [heq, hterms, List.take_succ_cons]
      · rw [heq, utf8Len_append, utf8Len_append, hjoin]
        have h2 : utf8Len promptHeader = 35 := by decide
        have h3 : utf8Len ".".toList = 1 := by decide
        have h4 : promptAvailable = 964 := by decide
        omega
      · rcases hgreedy with h | h
        · exact Or.inl (by simp [hterms, h])
        · refine Or.inr ?_
          have h1 : d.terms.take (n + 1 + 1) = t :: ts.take (n + 1) := by
            simp [hterms, List.take_succ_cons]
          rw [h1, joinParts_len t (ts.take (n + 1))]
          omega

-- ===========================================================================
-- jargon.rs: compute_active_dictionary
-- ===========================================================================

/-- Lowercasing used for dictionary keys; models Rust `str::to_lowercase`
(exact on ASCII; identity on other characters). -/
def lowerKey (s : List Char) : List Char := s.map Char.toLower

/-- Association-list model of `HashMap` lookup (`HashMap::get`). -/
def mapGet {β : Type} : List (List Char × β) → List Char → Option β
  | [], _ => none
  | (k', v) :: rest, k => if k' = k then some v else mapGet rest k

/-- Association-list model of `HashMap::insert` (overwrites). -/
def mapInsert {β : Type} : List (List Char × β) → List Char → β → List (List Char × β)
  | [], k, v => [(k, v)]
  | (k', v') :: rest, k, v =>
    if k' = k then (k, v) :: rest else (k', v') :: mapInsert rest k v

/-- Model of `HashMap::entry(k).or_insert_with(|| v)`: insert only if absent. -/
def mapOrInsert {β : Type} (m : List (List Char × β)) (k : List Char) (v : β) :
    List (List Char × β) :=
  if (mapGet m k).isSome then m else mapInsert m k v

/-- Byte-lexicographic `≤` on character lists; models Rust `String` ordering
(UTF-8 byte order coincides with code-point order). -/
def lexLe : List Char → List Char → Bool
  | [], _ => true
  | _ :: _, [] => false
  | a :: as, b :: bs => if a < b then true else if a = b then lexLe as bs else false

/-- The comparator used to sort merged corrections in
`compute_active_dictionary` (src/src-tauri/src/jargon.rs lines 580-585):
`a` may precede `b` iff `a.from` is strictly longer (in bytes), or the
lengths tie and `a.from ≤ b.from` lexicographically. -/
def corLe (a b : JargonCorrection) : Prop :=
  utf8Len b.«from» < utf8Len a.«from» ∨
    (utf8Len a.«from» = utf8Len b.«from» ∧ lexLe a.«from» b.«from» = true)

instance : DecidableRel corLe := fun a b => by
  unfold corLe; infer_instance

/-- Sorting of the enabled-profile ids (`profile_ids.sort()`). -/
def sortKeys (ids : List (List Char)) : List (List Char) :=
  List.insertionSort (fun a b => lexLe a b = true) ids

/-- Insert all terms of `l` into the map keyed by lowercase
(the `terms_map.insert(term.to_lowercase(), term.clone())` loop). -/
def insTerms (l : List (List Char)) (m : List (List Char × List Char)) :
    List (List Char × List Char) :=
  l.foldl (fun m term => mapInsert m (lowerKey term) term) m

/-- Insert all terms of `l` into the map keyed by lowercase, only when the
key is absent (the `terms_map.entry(key).or_insert_with(...)` loop). -/
def orInsTerms (l : List (List Char)) (m : List (List Char × List Char)) :
    List (List Char × List Char) :=
  l.foldl (fun m term => mapOrInsert m (lowerKey term) term) m

/-- One step of the ordered terms-list construction: skip terms whose
lowercase key was already seen, otherwise push the map's entry for the key.
`acc.1` is the `seen` set and `acc.2` the output `terms` vector. -/
def termStep (terms_map : List (List Char × List Char))
    (acc : List (List Char) × List (List Char)) (term : List Char) :
    List (List Char) × List (List Char) :=
  let key := lowerKey term
  if key ∈ acc.1 then acc
  else (key :: acc.1,
        match mapGet terms_map key with
        | some t => acc.2 ++ [t]
        | none => acc.2)

/-- The phase-2 terms-map loop: for each enabled profile id (in sorted
order), `or_insert` each of its terms. -/
def termsMapPhase2 (profiles : List (List Char × JargonProfile))
    (pids : List (List Char)) (m : List (List Char × List Char)) :
    List (List Char × List Char) :=
  pids.foldl (fun m pid =>
    match mapGet profiles pid with
    | some profile => orInsTerms profile.terms m
    | none => m) m

/-- The ordered terms-list loop over the enabled profiles. -/
def termsAccPhase (terms_map : List (List Char × List Char))
    (profiles : List (List Char × JargonProfile)) (pids : List (List Char))
    (acc : List (List Char) × List (List Char)) :
    List (List Char) × List (List Char) :=
  pids.foldl (fun acc pid =>
    match mapGet profiles pid with
    | some profile => profile.terms.foldl (termStep terms_map) acc
    | none => acc) acc

/-- Insert a list of corrections into the corrections map keyed by the
lowercased `from` phrase. -/
def corFold (l : List JargonCorrection) (m : List (List Char × JargonCorrection)) :
    List (List Char × JargonCorrection) :=
  l.foldl (fun m c => mapInsert m (lowerKey c.«from») c) m

/-- The profile-corrections loop of `compute_active_dictionary`. -/
def corPhase1 (profiles : List (List Char × JargonProfile))
    (pids : List (List Char)) (m : List (List Char × JargonCorrection)) :
    List (List Char × JargonCorrection) :=
  pids.foldl (fun m pid =>
    match mapGet profiles pid with
    | some profile => corFold profile.corrections m
    | none => m) m

/-- Model of `compute_active_dictionary` from src/src-tauri/src/jargon.rs
lines 506-588.  `profiles` models the `HashMap<String, JargonProfile>`
argument as an association list. -/
def compute_active_dictionary (settings : JargonSettings)
    (profiles : List (List Char × JargonProfile)) : ActiveDictionary :=
  let profile_ids := sortKeys (settings.enabled_profiles.filter
    (fun id => (mapGet profiles id).isSome))
  let terms_map := termsMapPhase2 profiles profile_ids
    (insTerms settings.custom_terms [])
  let acc := termsAccPhase terms_map profiles profile_ids
    (settings.custom_terms.foldl (termStep terms_map) ([], []))
  let corrections_map := corFold settings.custom_corrections
    (corPhase1 profiles profile_ids [])
  { terms := acc.2
    corrections := List.insertionSort corLe (corrections_map.map Prod.snd) }

-- ---------------------------------------------------------------------------
-- Association-map lemmas
-- ---------------------------------------------------------------------------

theorem mapGet_insert_self {β : Type} (m : List (List Char × β)) (k : List Char)
    (v : β) : mapGet (mapInsert m k v) k = some v := by
  induction m with
  | nil => simp [mapInsert, mapGet]
  | cons kv rest ih =>
    obtain ⟨k', v'⟩ := kv
    by_cases h : k' = k <;> simp [mapInsert, mapGet, h, ih]

theorem mapGet_insert_ne {β : Type} (m : List (List Char × β)) (k' k : List Char)
    (v : β) (h : k' ≠ k) : mapGet (mapInsert m k' v) k = mapGet m k := by
  induction m with
  | nil => simp [mapInsert, mapGet, h]
  | cons kv rest ih =>
    obtain ⟨k'', v''⟩ := kv
    by_cases h2 : k'' = k'
    · subst h2; simp [mapInsert, mapGet, h]
    · simp [mapInsert, h2]
      by_cases h3 : k'' = k <;> simp [mapGet, h3, ih]

theorem mapGet_insert_cases {β : Type} (m : List (List Char × β))
    (k' k : List Char) (v' v : β) (h : mapGet (mapInsert m k' v') k = some v) :
    (k = k' ∧ v = v') ∨ mapGet m k = some v := by
  by_cases hk : k' = k
  · subst hk
    rw [mapGet_insert_self] at h
    exact Or.inl ⟨rfl, (Option.some.injEq _ _).mp h.symm⟩
  · rw [mapGet_insert_ne m k' k v' hk] at h
    exact Or.inr h

theorem mapGet_insert_isSome {β : Type} (m : List (List Char × β))
    (k' k : List Char) (v : β) (h : (mapGet m k).isSome) :
    (mapGet (mapInsert m k' v) k).isSome := by
  by_cases hk : k' = k
  · subst hk; rw [mapGet_insert_self]; rfl
  · rw [mapGet_insert_ne m k' k v hk]; exact h

theorem mapGet_orInsert_of_isSome {β : Type} (m : List (List Char × β))
    (k' k : List Char) (v : β) (h : (mapGet m k).isSome) :
    mapGet (mapOrInsert m k' v) k = mapGet m k := by
  unfold mapOrInsert
  by_cases hk : k' = k
  · subst hk
    rw [if_pos h]
  · by_cases hp : (mapGet m k').isSome
    · rw [if_pos hp]
    · rw [if_neg hp, mapGet_insert_ne m k' k v hk]

theorem mapGet_orInsert_cases {β : Type} (m : List (List Char × β))
    (k' k : List Char) (v' v : β) (h : mapGet (mapOrInsert m k' v') k = some v) :
    (k = k' ∧ v = v') ∨ mapGet m k = some v := by
  unfold mapOrInsert at h
  by_cases hp : (mapGet m k').isSome
  · rw [if_pos hp] at h; exact Or.inr h
  · rw [if_neg hp] at h; exact mapGet_insert_cases m k' k v' v h

theorem insTerms_cons (t : List Char) (ts : List (List Char))
    (m : List (List Char × List Char)) :
    insTerms (t :: ts) m = insTerms ts (mapInsert m (lowerKey t) t) := rfl

theorem orInsTerms_cons (t : List Char) (ts : List (List Char))
    (m : List (List Char × List Char)) :
    orInsTerms (t :: ts) m = orInsTerms ts (mapOrInsert m (lowerKey t) t) := rfl

/-- Every value in the phase-1 (custom-terms) map is a custom term. -/
theorem insTerms_get_mem : ∀ (l : List (List Char))
    (m : List (List Char × List Char)) (k v : List Char),
    mapGet (insTerms l m) k = some v → v ∈ l ∨ mapGet m k = some v := by
  intro l
  induction l with
  | nil => intro m k v h; exact Or.inr h
  | cons t ts ih =>
    intro m k v h
    rw [insTerms_cons] at h
    rcases ih _ _ _ h with hmem | hget
    · exact Or.inl (List.mem_cons_of_mem t hmem)
    · rcases mapGet_insert_cases m (lowerKey t) k t v hget with ⟨_, hv⟩ | hm
      · exact Or.inl (by rw [hv]; exact List.mem_cons_self t ts)
      · exact Or.inr hm

/-- A map stores each value under its own lowercase key. -/
def goodMap (m : List (List Char × List Char)) : Prop :=
  ∀ k v, mapGet m k = some v → lowerKey v = k

theorem goodMap_insTerms : ∀ (l : List (List Char)) m,
    goodMap m → goodMap (insTerms l m) := by
  intro l
  induction l with
  | nil => intro m hm; exact hm
  | cons t ts ih =>
    intro m hm
    rw [insTerms_cons]
    refine ih _ ?_
    intro k v h
    rcases mapGet_insert_cases m (lowerKey t) k t v h with ⟨hk, hv⟩ | hget
    · rw [hk, hv]
    · exact hm k v hget

theorem goodMap_orInsTerms : ∀ (l : List (List Char)) m,
    goodMap m → goodMap (orInsTerms l m) := by
  intro l
  induction l with
  | nil => intro m hm; exact hm
  | cons t ts ih =>
    intro m hm
    rw [orInsTerms_cons]
    refine ih _ ?_
    intro k v h
    rcases mapGet_orInsert_cases m (lowerKey t) k t v h with ⟨hk, hv⟩ | hget
    · rw [hk, hv]
    · exact hm k v hget

theorem goodMap_termsMapPhase2 (profiles : List (List Char × JargonProfile)) :
    ∀ (pids : List (List Char)) m,
    goodMap m → goodMap (termsMapPhase2 profiles pids m) := by
  intro pids
  induction pids with
  | nil => intro m hm; exact hm
  | cons pid rest ih =>
    intro m hm
    show goodMap (termsMapPhase2 profiles rest _)
    cases hp : mapGet profiles pid with
    | none => simpa [termsMapPhase2, List.foldl_cons, hp] using ih m hm
    | some profile =>
      simpa [termsMapPhase2, List.foldl_cons, hp] using
        ih _ (goodMap_orInsTerms profile.terms m hm)

theorem insTerms_isSome_mono : ∀ (l : List (List Char)) m k,
    (mapGet m k).isSome → (mapGet (insTerms l m) k).isSome := by
  intro l
  induction l with
  | nil => intro m k h; exact h
  | cons t ts ih =>
    intro m k h
    rw [insTerms_cons]
    exact ih _ _ (mapGet_insert_isSome m (lowerKey t) k t h)

theorem insTerms_isSome_of_mem : ∀ (l : List (List Char)) m t,
    t ∈ l → (mapGet (insTerms l m) (lowerKey t)).isSome := by
  intro l
  induction l with
  | nil => intro m t h; simp at h
  | cons u ts ih =>
    intro m t h
    rw [insTerms_cons]
    rcases List.mem_cons.mp h with h | h
    · subst h
      exact insTerms_isSome_mono ts _ _
        (by rw [mapGet_insert_self]; rfl)
    · exact ih _ t h

theorem orInsTerms_get_of_isSome : ∀ (l : List (List Char)) m k,
    (mapGet m k).isSome → mapGet (orInsTerms l m) k = mapGet m k := by
  intro l
  induction l with
  | nil => intro m k _; rfl
  | cons t ts ih =>
    intro m k h
    rw [orInsTerms_cons]
    have hstep := mapGet_orInsert_of_isSome m (lowerKey t) k t h
    rw [ih _ _ (by rw [hstep]; exact h), hstep]

theorem termsMapPhase2_get_of_isSome (profiles : List (List Char × JargonProfile)) :
    ∀ (pids : List (List Char)) m k, (mapGet m k).isSome →
    mapGet (termsMapPhase2 profiles pids m) k = mapGet m k := by
  intro pids
  induction pids with
  | nil => intro m k _; rfl
  | cons pid rest ih =>
    intro m k h
    cases hp : mapGet profiles pid with
    | none => simpa [termsMapPhase2, List.foldl_cons, hp] using ih m k h
    | some profile =>
      have hstep := orInsTerms_get_of_isSome profile.terms m k h
      have := ih (orInsTerms profile.terms m) k (by rw [hstep]; exact h)
      simpa [termsMapPhase2, List.foldl_cons, hp, hstep] using this

-- ---------------------------------------------------------------------------
-- Ordered terms-list invariant
-- ---------------------------------------------------------------------------

/-- Invariant of the ordered terms-list construction: output keys are
distinct, every output key was seen, and every output element is the map's
binding for its own key. -/
def termsInv (tm : List (List Char × List Char))
    (acc : List (List Char) × List (List Char)) : Prop :=
  (acc.2.map lowerKey).Nodup ∧
  (∀ x ∈ acc.2, lowerKey x ∈ acc.1) ∧
  (∀ x ∈ acc.2, mapGet tm (lowerKey x) = some x)

theorem termStep_inv (tm : List (List Char × List Char)) (hg : goodMap tm)
    (acc : List (List Char) × List (List Char)) (term : List Char)
    (h : termsInv tm acc) : termsInv tm (termStep tm acc term) := by
  obtain ⟨h1, h2, h3⟩ := h
  by_cases hk : lowerKey term ∈ acc.1
  · simpa [termStep, hk] using ⟨h1, h2, h3⟩
  · cases hget : mapGet tm (lowerKey term) with
    | none =>
      refine ⟨?_, ?_, ?_⟩ <;> simp only [termStep, if_neg hk, hget]
      · exact h1
      · exact fun x hx => List.mem_cons_of_mem _ (h2 x hx)
      · exact h3
    | some t =>
      have hkey : lowerKey t = lowerKey term := hg _ _ hget
      refine ⟨?_, ?_, ?_⟩ <;> simp only [termStep, if_neg hk, hget]
      · have hnotin : lowerKey term ∉ acc.2.map lowerKey := by
          intro hmem
          obtain ⟨x, hx, hxk⟩ := List.mem_map.mp hmem
          exact hk (hxk ▸ h2 x hx)
        simp only [List.map_append, List.map_cons, List.map_nil]
        refine List.Nodup.append h1 (List.nodup_singleton _) ?_
        intro a ha hb
        simp only [List.mem_singleton] at hb
        rw [hb, hkey] at ha
        exact hnotin ha
      · intro x hx
        rcases List.mem_append.mp hx with hx | hx
        · exact List.mem_cons_of_mem _ (h2 x hx)
        · simp only [List.mem_singleton] at hx
          rw [hx, hkey]
          exact List.mem_cons_self _ _
      · intro x hx
        rcases List.mem_append.mp hx with hx | hx
        · exact h3 x hx
        · simp only [List.mem_singleton] at hx
          rw [hx, hkey]
          exact hget

theorem foldl_termStep_inv (tm : List (List Char × List Char)) (hg : goodMap tm) :
    ∀ (l : List (List Char)) acc, termsInv tm acc →
    termsInv tm (l.foldl (termStep tm) acc) := by
  intro l
  induction l with
  | nil => intro acc h; exact h
  | cons t ts ih =>
    intro acc h
    exact ih _ (termStep_inv tm hg acc t h)

theorem termsAccPhase_inv (tm : List (List Char × List Char)) (hg : goodMap tm)
    (profiles : List (List Char × JargonProfile)) :
    ∀ (pids : List (List Char)) acc, termsInv tm acc →
    termsInv tm (termsAccPhase tm profiles pids acc) := by
  intro pids
  induction pids with
  | nil => intro acc h; exact h
  | cons pid rest ih =>
    intro acc h
    cases hp : mapGet profiles pid with
    | none => simpa [termsAccPhase, List.foldl_cons, hp] using ih acc h
    | some profile =>
      simpa [termsAccPhase, List.foldl_cons, hp] using
        ih _ (foldl_termStep_inv tm hg profile.terms acc h)

-- ---------------------------------------------------------------------------
-- Lexicographic order and the corrections comparator
-- ---------------------------------------------------------------------------

theorem lexLe_total : ∀ a b : List Char, lexLe a b = true ∨ lexLe b a = true := by
  intro a
  induction a with
  | nil => intro b; exact Or.inl rfl
  | cons x xs ih =>
    intro b
    cases b with
    | nil => exact Or.inr rfl
    | cons y ys =>
      rcases lt_trichotomy x y with h | h | h
      · exact Or.inl (by simp [lexLe, h])
      · subst h
        rcases ih ys with hl | hl
        · exact Or.inl (by simp [lexLe, hl])
        · exact Or.inr (by simp [lexLe, hl])
      · exact Or.inr (by simp [lexLe, h])

theorem lexLe_trans : ∀ a b c : List Char,
    lexLe a b = true → lexLe b c = true → lexLe a c = true := by
  intro a
  induction a with
  | nil => intro b c _ _; rfl
  | cons x xs ih =>
    intro b c hab hbc
    cases b with
    | nil => simp [lexLe] at hab
    | cons y ys =>
      cases c with
      | nil => simp [lexLe] at hbc
      | cons z zs =>
        by_cases hxy : x < y
        · by_cases hyz : y < z
          · simp [lexLe, lt_trans hxy hyz]
          · have hyz' : y = z := by
              by_contra hne
              simp [lexLe, hyz, hne] at hbc
            subst hyz'
            simp [lexLe, hxy]
        · have hxy' : x = y := by
            by_contra hne
            simp [lexLe, hxy, hne] at hab
          subst hxy'
          by_cases hyz : x < z
          · simp [lexLe, hyz]
          · have hyz' : x = z := by
              by_contra hne
              simp [lexLe, hyz, hne] at hbc
            subst hyz'
            simp only [lexLe, lt_irrefl, if_false, if_pos rfl] at hab hbc ⊢
            exact ih _ _ hab hbc

instance : IsTotal JargonCorrection corLe :=
  ⟨fun a b => by
    unfold corLe
    rcases Nat.lt_trichotomy (utf8Len a.«from») (utf8Len b.«from») with h | h | h
    · exact Or.inr (Or.inl h)
    · rcases lexLe_total a.«from» b.«from» with hl | hl
      · exact Or.inl (Or.inr ⟨h, hl⟩)
      · exact Or.inr (Or.inr ⟨h.symm, hl⟩)
    · exact Or.inl (Or.inl h)⟩

instance : IsTrans JargonCorrection corLe :=
  ⟨fun a b c hab hbc => by
    unfold corLe at *
    rcases hab with h1 | ⟨h1, h1l⟩ <;> rcases hbc with h2 | ⟨h2, h2l⟩
    · exact Or.inl (by omega)
    · exact Or.inl (by omega)
    · exact Or.inl (by omega)
    · exact Or.inr ⟨by omega, lexLe_trans _ _ _ h1l h2l⟩⟩

-- ===========================================================================
-- Theorem for claim C4 (dictionary merge precedence and ordering)
-- ===========================================================================

/-- C4: in `compute_active_dictionary`'s merged output, (i) any term whose
lowercase key is claimed by a custom term is literally that custom term
(custom casing wins over profile casing), (ii) the merged terms hold exactly
one entry per lowercase key, (iii) the merged corrections are ordered
longest-`from`-first with ties broken alphabetically by `from`, and (iv) in
particular the correction `"E C two"` ranks before `"E C"`. -/
theorem dictionary_merge (settings : JargonSettings)
    (profiles : List (List Char × JargonProfile)) :
    (∀ x ∈ (compute_active_dictionary settings profiles).terms,
      lowerKey x ∈ settings.custom_terms.map lowerKey →
      x ∈ settings.custom_terms) ∧
    ((compute_active_dictionary settings profiles).terms.map lowerKey).Nodup ∧
    List.Pairwise corLe (compute_active_dictionary settings profiles).corrections ∧
    (compute_active_dictionary
      ⟨[], [], [⟨"E C".toList, "EC".toList⟩, ⟨"E C two".toList, "EC2".toList⟩]⟩
      []).corrections =
      [⟨"E C two".toList, "EC2".toList⟩, ⟨"E C".toList, "EC".toList⟩] := by
  have hg1 : goodMap (insTerms settings.custom_terms []) :=
    goodMap_insTerms settings.custom_terms [] (by intro k v h; simp [mapGet] at h)
  set pids := sortKeys (settings.enabled_profiles.filter
    (fun id => (mapGet profiles id).isSome)) with hpids
  set tm := termsMapPhase2 profiles pids (insTerms settings.custom_terms [])
    with htm
  have hg : goodMap tm := goodMap_termsMapPhase2 profiles pids _ hg1
  have hinv : termsInv tm (termsAccPhase tm profiles pids
      (settings.custom_terms.foldl (termStep tm) ([], []))) := by
    refine termsAccPhase_inv tm hg profiles pids _ ?_
    refine foldl_termStep_inv tm hg settings.custom_terms ([], []) ?_
    exact ⟨List.nodup_nil, by simp, by simp⟩
  have hterms : (compute_active_dictionary settings profiles).terms =
      (termsAccPhase tm profiles pids
        (settings.custom_terms.foldl (termStep tm) ([], []))).2 := rfl
  refine ⟨?_, ?_, ?_, by decide⟩
  · intro x hx hkey
    rw [hterms] at hx
    have hget : mapGet tm (lowerKey x) = some x := hinv.2.2 x hx
    obtain ⟨t, ht, htk⟩ := List.mem_map.mp hkey
    have hsome1 : (mapGet (insTerms settings.custom_terms []) (lowerKey x)).isSome := by
      rw [← htk]
      exact insTerms_isSome_of_mem settings.custom_terms [] t ht
    have hpres : mapGet tm (lowerKey x) =
        mapGet (insTerms settings.custom_terms []) (lowerKey x) :=
      termsMapPhase2_get_of_isSome profiles pids _ _ hsome1
    rw [hpres] at hget
    rcases insTerms_get_mem settings.custom_terms [] (lowerKey x) x hget with h | h
    · exact h
    · simp [mapGet] at h
  · rw [hterms]
    exact hinv.1
  · exact List.sorted_insertionSort corLe _

/-- Witness for C4: a custom `"typescript"` keeps its casing against the
profile's `"TypeScript"`. -/
theorem dictionary_merge_witness :
    "typescript".toList ∈
      (⟨["web".toList], ["typescript".toList], []⟩ : JargonSettings).custom_terms :=
  (dictionary_merge ⟨["web".toList], ["typescript".toList], []⟩
      [("web".toList, ⟨["TypeScript".toList], []⟩)]).1
    "typescript".toList (by decide) (by decide)

-- ===========================================================================
-- managers/domain_selector.rs: profile selection with hysteresis
-- ===========================================================================

/-- Model of `RankedProfile` from src/src-tauri/src/managers/domain_selector.rs.
Scores (Rust `f32`) are modelled as rationals: the claims' score values and
margins are exactly representable, and only order comparisons are performed
on them here. -/
structure RankedProfile where
  profile_id : List Char
  score : ℚ
  deriving DecidableEq

/-- Model of `LastSelection` (the spec's `SelectionMemory`). -/
structure LastSelection where
  profile_id : List Char
  score : ℚ
  deriving DecidableEq

/-- The `AppSettings` fields consumed by `select_profiles_with_timeout`. -/
structure SelectorSettings where
  domain_selector_enabled : Bool
  domain_selector_top_k : Nat
  domain_selector_min_score : ℚ
  domain_selector_hysteresis : ℚ

/-- The hysteresis step of `select_profiles_with_timeout`
(src/src-tauri/src/managers/domain_selector.rs lines 83-103): when the new
top differs from the remembered winner and does not beat
`last_score + hysteresis`, the previous winner is re-inserted at rank 0 and
the list re-truncated to `top_k`. -/
def applyHysteresis (top_k : Nat) (hysteresis : ℚ) (last : Option LastSelection)
    (selected : List RankedProfile) : List RankedProfile :=
  match last, selected.head? with
  | some l, some current_top =>
    if current_top.profile_id ≠ l.profile_id ∧
        ¬ (l.score + hysteresis ≤ current_top.score) then
      (⟨l.profile_id, l.score⟩ :: selected).take top_k
    else selected
  | _, _ => selected

/-- Model of `select_profiles_with_timeout`
(src/src-tauri/src/managers/domain_selector.rs lines 37-123).  The scoring
thread and its `recv_timeout` are modelled by the `ranked` input: `none`
stands for a timeout, `some r` for the ranked list delivered in time.  The
`Mutex<Option<LastSelection>>` memory is threaded explicitly: the result
pairs the returned profile ids with the updated memory. -/
def select_profiles (settings : SelectorSettings) (context : List Char)
    (ranked : Option (List RankedProfile)) (last : Option LastSelection) :
    Option (List (List Char)) × Option LastSelection :=
  if !settings.domain_selector_enabled then (none, last)
  else if context.all Char.isWhitespace then (none, last)
  else
    let top_k := max settings.domain_selector_top_k 1
    let min_score := max 0 (min 1 settings.domain_selector_min_score)
    let hysteresis := max 0 (min 1 settings.domain_selector_hysteresis)
    match ranked with
    | none => (none, last)
    | some ranked =>
      let selected := (ranked.filter (fun item => min_score ≤ item.score)).take top_k
      if selected.isEmpty then (none, last)
      else
        let selected := applyHysteresis top_k hysteresis last selected
        let newLast := match selected.head? with
          | some top => some (⟨top.profile_id, top.score⟩ : LastSelection)
          | none => last
        (some (selected.map (fun item => item.profile_id)), newLast)

-- ===========================================================================
-- Theorem for claim C3 (hysteresis keeps the previous winner at rank 0)
-- ===========================================================================

/-- C3: in a session where call 1 records profile `A` at score 0.30, and call
2's top-scored candidate is `B` at 0.33 under hysteresis margin 0.08, call 2
still returns `A` at rank 0 ahead of `B`: the previous winner is re-inserted
at rank 0 (0.33 does not beat 0.30 + 0.08).  The scoring thread is modelled
by the explicitly supplied ranked lists; memory is threaded from call 1 into
call 2. -/
theorem hysteresis_keeps_previous_winner :
    (select_profiles ⟨true, 2, 1/20, 2/25⟩ ['b']
        (some [⟨['A'], 3/10⟩]) none).1 = some [['A']] ∧
    (select_profiles ⟨true, 2, 1/20, 2/25⟩ ['b']
        (some [⟨['A'], 3/10⟩]) none).2 = some ⟨['A'], 3/10⟩ ∧
    (select_profiles ⟨true, 2, 1/20, 2/25⟩ ['b']
        (some [⟨['B'], 33/100⟩])
        (select_profiles ⟨true, 2, 1/20, 2/25⟩ ['b']
          (some [⟨['A'], 3/10⟩]) none).2).1 =
      some [['A'], ['B']] := by
  have hws : (['b'].all Char.isWhitespace) = false := by decide
  have hmin : (max 0 (min 1 ((1:ℚ)/20))) = 1/20 := by norm_num
  have hhys : (max 0 (min 1 ((2:ℚ)/25))) = 2/25 := by norm_num
  have hc1 : ((1:ℚ)/20) ≤ 3/10 := by norm_num
  have hc2 : ((1:ℚ)/20) ≤ 33/100 := by norm_num
  have hc3 : ¬ ((3:ℚ)/10 + 2/25 ≤ 33/100) := by norm_num
  have hne : (['B'] : List Char) ≠ ['A'] := by decide
  have hcall1 : select_profiles ⟨true, 2, 1/20, 2/25⟩ ['b']
      (some [⟨['A'], 3/10⟩]) none = (some [['A']], some ⟨['A'], 3/10⟩) := by
    simp [select_profiles, applyHysteresis, hws, hmin, hhys, hc1,
      List.filter_cons]
    norm_num
  refine ⟨by rw [hcall1], by rw [hcall1], ?_⟩
  rw [hcall1]
  simp [select_profiles, applyHysteresis, hws, hmin, hhys, hc2, hc3, hne,
    List.filter_cons]
  norm_num
  simp [show ('B' : Char) ≠ 'A' from by decide]

-- ===========================================================================
-- jargon.rs: protected-span masking (mask_protected_spans)
-- ===========================================================================

/-- Regex `\w` (word character): Rust regex uses the Unicode word class, of
which the ASCII part (alphanumerics and underscore) is modelled here; the
texts of all claims are ASCII. -/
def isWordChar (c : Char) : Bool := c.isAlphanum || c = '_'

/-- The backtick character (U+0060). -/
def backtickChar : Char := Char.ofNat 96

/-- Character class of `@[\w\-./]+` after the `@`. -/
def inAtClass (c : Char) : Bool :=
  isWordChar c || c = '-' || c = '.' || c = '/'

/-- Pattern 1, `@[\w\-./]+`: an `@` followed by one or more class
characters (greedy).  Returns the matched length. -/
def matchAtToken : List Char → Option Nat
  | c :: rest =>
    if c = '@' then
      let n := (rest.takeWhile inAtClass).length
      if n = 0 then none else some (n + 1)
    else none
  | [] => none

/-- Pattern 2, backtick-delimited code: a backtick, one or more non-backtick
characters (greedy), then a closing backtick. -/
def matchCode : List Char → Option Nat
  | c :: rest =>
    if c = backtickChar then
      let n := (rest.takeWhile (fun d => d ≠ backtickChar)).length
      if n = 0 then none
      else
        match (rest.drop n).head? with
        | some d => if d = backtickChar then some (n + 2) else none
        | none => none
    else none
  | [] => none

/-- Plain (case-sensitive) prefix test. -/
def isPrefixLit : List Char → List Char → Bool
  | [], _ => true
  | _ :: _, [] => false
  | p :: ps, s :: ss => p = s && isPrefixLit ps ss

/-- Pattern 3, `https?://[^\s]+`: scheme prefix then one or more
non-whitespace characters (greedy). -/
def matchUrl (s : List Char) : Option Nat :=
  if isPrefixLit "https://".toList s then
    let n := ((s.drop 8).takeWhile (fun c => !c.isWhitespace)).length
    if n = 0 then none else some (8 + n)
  else if isPrefixLit "http://".toList s then
    let n := ((s.drop 7).takeWhile (fun c => !c.isWhitespace)).length
    if n = 0 then none else some (7 + n)
  else none

/-- First path segment class `[\w\-]`. -/
def inPathSeg1 (c : Char) : Bool := isWordChar c || c = '-'

/-- Later path segment class `[\w\-.*]`. -/
def inPathSeg (c : Char) : Bool :=
  isWordChar c || c = '-' || c = '.' || c = '*'

/-- The `(?:/[\w\-.*]+)+` tail of the path pattern: one or more segments of
a slash followed by one or more class characters.  Fuel-driven; each
iteration consumes at least two characters. -/
def pathSegs : Nat → List Char → Option Nat
  | 0, _ => none
  | fuel + 1, s =>
    match s with
    | c :: rest =>
      if c = '/' then
        let n := (rest.takeWhile inPathSeg).length
        if n = 0 then none
        else
          match pathSegs fuel (rest.drop n) with
          | some m => some (1 + n + m)
          | none => some (1 + n)
      else none
    | [] => none

/-- Pattern 4, `(?:~/|/[\w\-]+(?:/[\w\-.*]+)+)`: either a literal `~/`, or
an absolute path of at least two segments. -/
def matchPath : List Char → Option Nat
  | '~' :: c :: _ => if c = '/' then some 2 else none
  | '/' :: rest =>
    let n := (rest.takeWhile inPathSeg1).length
    if n = 0 then none
    else
      match pathSegs rest.length (rest.drop n) with
      | some m => some (1 + n + m)
      | none => none
  | _ => none

/-- Flag-name class `[\w\-]`. -/
def inFlagBody (c : Char) : Bool := isWordChar c || c = '-'

/-- Flag-value class `[\w\-./]`. -/
def inFlagValue (c : Char) : Bool :=
  isWordChar c || c = '-' || c = '.' || c = '/'

/-- The `--?[\w\-]+=?(?:[\w\-./]+)?` core of pattern 5, matched at the first
dash (`(?:^|\s)` is handled by the caller).  Since `-` itself belongs to
`[\w\-]`, `--?[\w\-]+` is equivalent to a dash followed by at least one
`[\w\-]` character. -/
def matchFlagCore : List Char → Option Nat
  | c :: rest =>
    if c = '-' then
      let n := (rest.takeWhile inFlagBody).length
      if n = 0 then none
      else
        match rest.drop n with
        | d :: rest3 =>
          if d = '=' then some (1 + n + 1 + (rest3.takeWhile inFlagValue).length)
          else some (1 + n + ((rest.drop n).takeWhile inFlagValue).length)
        | [] => some (1 + n)
    else none
  | [] => none

/-- One scan step of the combined protected-span pattern: try the five
alternatives in priority order at the current position (`atStart` is true
only at the very beginning of the text, for the `^` alternative of the CLI
flag pattern, which otherwise consumes a leading whitespace character). -/
def tryMatchAt (atStart : Bool) (s : List Char) : Option Nat :=
  match matchAtToken s with
  | some n => some n
  | none =>
    match matchCode s with
    | some n => some n
    | none =>
      match matchUrl s with
      | some n => some n
      | none =>
        match matchPath s with
        | some n => some n
        | none =>
          match (if atStart then matchFlagCore s else none) with
          | some n => some n
          | none =>
            match s with
            | c :: rest =>
              if c.isWhitespace then
                (matchFlagCore rest).map (fun n => n + 1)
              else none
            | [] => none

/-- Model of `ProtectedSpan` from src/src-tauri/src/jargon.rs. -/
structure ProtectedSpan where
  placeholder : List Char
  original : List Char
  deriving DecidableEq

/-- The placeholder string `⟦Sᵢ⟧` for span index `i`. -/
def placeholderOf (i : Nat) : List Char :=
  '⟦' :: 'S' :: (Nat.toDigits 10 i ++ ['⟧'])

/-- The left-to-right masking scan of `mask_protected_spans`: at each
position, the first matching alternative wins and scanning resumes after the
match; non-matching characters are copied.  `i` numbers the placeholders in
forward order, as the Rust code does.  Fuel-driven (structural); every step
consumes at least one character, so `text.length + 1` fuel is exact. -/
def maskAux : Nat → Nat → Bool → List Char → List Char × List ProtectedSpan
  | 0, _, _, s => (s, [])
  | fuel + 1, i, atStart, s =>
    match tryMatchAt atStart s with
    | some n =>
      if n = 0 then (s, [])
      else
        let res := maskAux fuel (i + 1) false (s.drop n)
        (placeholderOf i ++ res.1, ⟨placeholderOf i, s.take n⟩ :: res.2)
    | none =>
      match s with
      | [] => ([], [])
      | c :: rest =>
        let res := maskAux fuel i false rest
        (c :: res.1, res.2)

/-- Model of `mask_protected_spans` from src/src-tauri/src/jargon.rs lines
638-668: returns the masked text and the spans in forward order. -/
def mask_protected_spans (text : List Char) : List Char × List ProtectedSpan :=
  maskAux (text.length + 1) 0 true text

-- ===========================================================================
-- jargon.rs: correction replacement and restoration
-- ===========================================================================

/-- Word-character test on an optional character (text boundaries count as
non-word). -/
def isWordOpt : Option Char → Bool
  | some c => isWordChar c
  | none => false

/-- Case-insensitive character equality, modelling the regex `(?i)` flag
(ASCII case folding). -/
def ciEq (a b : Char) : Bool := a.toLower = b.toLower

/-- Case-insensitive prefix test. -/
def ciPrefixOf : List Char → List Char → Bool
  | [], _ => true
  | _ :: _, [] => false
  | p :: ps, s :: ss => ciEq p s && ciPrefixOf ps ss

/-- Match of the regex `(?i)\b pat \b` (with `pat` a non-empty escaped
literal) at the head of `s`, where `prev` is the character immediately
before the current position: the characters match case-insensitively and
both ends sit on word boundaries. -/
def wbMatchAt (pat : List Char) (prev : Option Char) (s : List Char) : Bool :=
  match pat, s with
  | [], _ => false
  | _ :: _, [] => false
  | _ :: _, c :: _ =>
    ciPrefixOf pat s &&
    (isWordOpt prev != isWordChar c) &&
    (match (s.take pat.length).getLast? with
     | some lastc => isWordChar lastc != isWordOpt ((s.drop pat.length).head?)
     | none => false)

/-- The `re.replace_all` scan for one correction: scan left to right; at a
match emit the replacement and skip the matched characters (the `Nat` state
counts characters still to skip); otherwise copy one character.  `prev`
tracks the previous character of the original text for `\b` checks. -/
def replaceAux (pat rep : List Char) : Option Char → Nat → List Char → List Char
  | _, _, [] => []
  | _, Nat.succ k, c :: rest => replaceAux pat rep (some c) k rest
  | prev, 0, c :: rest =>
    if wbMatchAt pat prev (c :: rest) then
      rep ++ replaceAux pat rep (some c) (pat.length - 1) rest
    else
      c :: replaceAux pat rep (some c) 0 rest

/-- Application of one correction over the masked text
(src/src-tauri/src/jargon.rs lines 691-695). -/
def replace_correction (text : List Char) (c : JargonCorrection) : List Char :=
  replaceAux c.«from» c.«to» none 0 text

/-- The `str::replace` scan (case-sensitive, no boundaries, non-overlapping,
left to right).  An empty needle is treated as a no-op; all needles used by
the pipeline are placeholder strings, which are non-empty. -/
def replaceAllAux (needle rep : List Char) : Nat → List Char → List Char
  | _, [] => []
  | Nat.succ k, _ :: rest => replaceAllAux needle rep k rest
  | 0, c :: rest =>
    if needle ≠ [] ∧ isPrefixLit needle (c :: rest) = true then
      rep ++ replaceAllAux needle rep (needle.length - 1) rest
    else
      c :: replaceAllAux needle rep 0 rest

/-- Model of `str::replace(needle, rep)`. -/
def replaceAll (needle rep text : List Char) : List Char :=
  replaceAllAux needle rep 0 text

/-- Model of `restore_protected_spans` (src/src-tauri/src/jargon.rs lines
670-676): replace every occurrence of each placeholder, spans in forward
order. -/
def restore_protected_spans (text : List Char) (spans : List ProtectedSpan) :
    List Char :=
  spans.foldl (fun t sp => replaceAll sp.placeholder sp.original t) text

/-- Substring test, modelling Rust `str::contains`. -/
def containsSeq (needle : List Char) : List Char → Bool
  | [] => needle.isEmpty
  | c :: rest => isPrefixLit needle (c :: rest) || containsSeq needle rest

/-- The restored text of the correction pass, before the safety check. -/
def restoredOf (text : List Char) (corrections : List JargonCorrection) :
    List Char :=
  restore_protected_spans
    (corrections.foldl replace_correction (mask_protected_spans text).1)
    (mask_protected_spans text).2

/-- The step-4 safety check of `apply_corrections`: some placeholder string
is still present in the restored text. -/
def placeholderLeak (text : List Char) (corrections : List JargonCorrection) :
    Bool :=
  (mask_protected_spans text).2.any
    (fun sp => containsSeq sp.placeholder (restoredOf text corrections))

/-- Model of `apply_corrections` from src/src-tauri/src/jargon.rs lines
682-713: mask protected spans, apply each correction over the masked text,
restore the placeholders, and return the original text unchanged if any
placeholder is still present after restoration. -/
def apply_corrections (text : List Char) (corrections : List JargonCorrection) :
    List Char :=
  if corrections.isEmpty || text.isEmpty then text
  else if placeholderLeak text corrections then text
  else restoredOf text corrections

-- ===========================================================================
-- Theorem for claim C5 (atomicity on safety-check failure)
-- ===========================================================================

/-- C5: whenever a placeholder string is still present after restoration,
`apply_corrections` discards all changes and returns the original input
unmodified. -/
theorem correction_atomicity (text : List Char)
    (corrections : List JargonCorrection)
    (h : placeholderLeak text corrections = true) :
    apply_corrections text corrections = text := by
  unfold apply_corrections
  by_cases hc : corrections.isEmpty || text.isEmpty
  · rw [if_pos hc]
  · rw [if_neg hc, if_pos h]

/-- Witness for C5: restoring the second span re-injects the literal text
`⟦S0⟧` after span 0 was already restored, so the check fails and the input
comes back unchanged. -/
theorem correction_atomicity_witness :
    apply_corrections "@a `⟦S0⟧`".toList [⟨"zzz".toList, "zzz".toList⟩] =
      "@a `⟦S0⟧`".toList :=
  correction_atomicity _ _ (by decide)

-- ===========================================================================
-- Theorem for claim C1 (protected spans, safety check bypassed)
-- ===========================================================================

/-- C1 fails on the code: with the correction list `["S0" → "X"]`, the
placeholder `⟦S0⟧` that masks the protected span `@file.rs` is itself
rewritten to `⟦X⟧` by the correction pass (the `\b`-delimited pattern `S0`
matches inside the placeholder, whose delimiters are non-word characters).
The step-4 safety check then passes — no placeholder string remains — yet
the output `⟦X⟧` does not contain the protected span: the check cannot
detect placeholders that were rewritten rather than left dangling. -/
theorem protected_span_check_bypassed :
    placeholderLeak "@file.rs".toList [⟨"S0".toList, "X".toList⟩] = false ∧
    apply_corrections "@file.rs".toList [⟨"S0".toList, "X".toList⟩] =
      ['⟦', 'X', '⟧'] ∧
    containsSeq "@file.rs".toList
      (apply_corrections "@file.rs".toList [⟨"S0".toList, "X".toList⟩]) =
      false :=
  ⟨by decide, by decide, by decide⟩

-- ===========================================================================
-- Theorem for claim C6 (word-boundary replacement)
-- ===========================================================================

/-- Word-bounded case-insensitive occurrence of `pat` anywhere in `s`, with
`prev` the character before the scan position. -/
def hasWbOcc (pat : List Char) : Option Char → List Char → Bool
  | _, [] => false
  | prev, c :: rest => wbMatchAt pat prev (c :: rest) || hasWbOcc pat (some c) rest

theorem isPrefixLit_append_self : ∀ x y : List Char,
    isPrefixLit x (x ++ y) = true := by
  intro x y
  induction x with
  | nil => rfl
  | cons a as ih => simp [isPrefixLit, ih]

theorem containsSeq_append_self (x y : List Char) :
    containsSeq x (x ++ y) = true := by
  cases x with
  | nil =>
    cases y with
    | nil => rfl
    | cons c cs => simp [containsSeq, isPrefixLit]
  | cons a as =>
    simp only [containsSeq, Bool.or_eq_true]
    exact Or.inl (isPrefixLit_append_self (a :: as) y)

/-- Without a word-bounded occurrence the replacement scan copies the text
verbatim. -/
theorem replaceAux_id (pat rep : List Char) :
    ∀ (s : List Char) (prev : Option Char),
    hasWbOcc pat prev s = false → replaceAux pat rep prev 0 s = s := by
  intro s
  induction s with
  | nil => intro prev _; rfl
  | cons c rest ih =>
    intro prev h
    simp only [hasWbOcc, Bool.or_eq_false_iff] at h
    obtain ⟨h1, h2⟩ := h
    simp only [replaceAux, h1, Bool.false_eq_true, if_false]
    rw [ih (some c) h2]

/-- With a word-bounded occurrence the replacement scan emits the
replacement text. -/
theorem replaceAux_contains (pat rep : List Char) :
    ∀ (s : List Char) (prev : Option Char),
    hasWbOcc pat prev s = true →
    containsSeq rep (replaceAux pat rep prev 0 s) = true := by
  intro s
  induction s with
  | nil => intro prev h; simp [hasWbOcc] at h
  | cons c rest ih =>
    intro prev h
    by_cases hw : wbMatchAt pat prev (c :: rest) = true
    · simp only [replaceAux, hw, if_true]
      exact containsSeq_append_self rep _
    · have h2 : hasWbOcc pat (some c) rest = true := by
        simpa [hasWbOcc, hw] using h
      simp only [replaceAux, hw, Bool.false_eq_true, if_false]
      simp [containsSeq, ih (some c) h2]

/-- C6: each correction is applied as a case-insensitive,
word-boundary-delimited replacement over the masked text: for every text
with no word-bounded case-insensitive occurrence of `"type script"` the
replacement pass returns it unchanged (so every standalone `"script"` is
unaltered), and whenever such an occurrence exists the output contains
`"TypeScript"`; end to end, `apply_corrections` leaves
`"This script is good"` unchanged and rewrites
`"I use Type Script and TYPE SCRIPT"` to
`"I use TypeScript and TypeScript"`. -/
theorem word_boundary_replacement (s : List Char) :
    (hasWbOcc "type script".toList none s = false →
      replace_correction s ⟨"type script".toList, "TypeScript".toList⟩ = s) ∧
    (hasWbOcc "type script".toList none s = true →
      containsSeq "TypeScript".toList
        (replace_correction s
          ⟨"type script".toList, "TypeScript".toList⟩) = true) ∧
    apply_corrections "This script is good".toList
      [⟨"type script".toList, "TypeScript".toList⟩] =
      "This script is good".toList ∧
    apply_corrections "I use Type Script and TYPE SCRIPT".toList
      [⟨"type script".toList, "TypeScript".toList⟩] =
      "I use TypeScript and TypeScript".toList :=
  ⟨fun h => replaceAux_id _ _ s none h,
   fun h => replaceAux_contains _ _ s none h,
   by decide, by decide⟩

/-- Witness for C6 at a text with a standalone `"script"` and at a text with
a `"type script"` occurrence. -/
theorem word_boundary_replacement_witness :
    replace_correction "This script is good".toList
      ⟨"type script".toList, "TypeScript".toList⟩ =
      "This script is good".toList ∧
    containsSeq "TypeScript".toList
      (replace_correction "type script rocks".toList
        ⟨"type script".toList, "TypeScript".toList⟩) = true :=
  ⟨(word_boundary_replacement "This script is good".toList).1 (by decide),
   (word_boundary_replacement "type script rocks".toList).2.1 (by decide)⟩

end Spittle
